import Mathlib

/-!
Verification of the `ring` bloom-filter package (`src/ring.go`).

The Go `Ring` struct holds `size` (number of bits, `uint64`), `bits`
(the packed byte array, of length `size/8+1`), `hash` (number of hash
rounds) and a mutex.  The mutex only serialises access and carries no
logical content, so the embedding drops it; machine words become `Nat`
with explicit `% 2^64` where the code can overflow.

The hash engine (`generateMultiHash`, `getRound`) is not part of the
sources under `src/`; per the specification it is a deterministic pure
function producing two 64-bit seed hashes combined by double hashing.
`generateMultiHash` is therefore kept abstract: every operation is
parametrised by a function `mh : List Nat → Nat × Nat`, and the
theorems hold for an arbitrary deterministic hash.  `getRound` is
modelled from the spec as `h1 + round * h2` on 64-bit words.
-/

namespace RingPkg

/-- Model of the Go `Ring` struct from `src/ring.go` (mutex dropped):
`size` is the number of addressable bits, `hash` the number of hash
rounds, `bits` the packed byte array. -/
structure Ring where
  size : Nat
  hash : Nat
  bits : List Nat
  deriving Repr, DecidableEq

namespace Ring

/-- Modelled from the spec: the hash engine's `derive(h1, h2, round)`
(Go `getRound`), which is missing from `src/`; the spec fixes it as the
Kirsch–Mitzenmacher combination `h1 + round*h2` on 64-bit integers. -/
def getRound (h : Nat × Nat) (round : Nat) : Nat :=
  (h.1 + round * h.2) % 2 ^ 64

/-- One bit-set step of `Add`: Go `r.bits[index/8] |= (1 << (index % 8))`.
Out-of-range positions never occur for well-formed stores (see the
bounds theorem); `List.set` is then an exact model of the assignment. -/
def setIdx (bits : List Nat) (index : Nat) : List Nat :=
  bits.set (index / 8) (bits.getD (index / 8) 0 ||| (1 <<< (index % 8)))

/-- One bit-test step of `Test`: Go
`(r.bits[index/8] & (1 << (index % 8))) == 0` (negated: `true` means the
bit is set). -/
def testIdx (bits : List Nat) (index : Nat) : Bool :=
  bits.getD (index / 8) 0 &&& (1 <<< (index % 8)) != 0

/-- Go `Add` (`src/ring.go` lines 51–60): for each round
`i ∈ [0, r.hash)` set bit `getRound(hash, i) % r.size`.  `mh` stands for
`generateMultiHash`. -/
def Add (mh : List Nat → Nat × Nat) (r : Ring) (data : List Nat) : Ring :=
  { r with
    bits := (List.range r.hash).foldl
      (fun b i => setIdx b (getRound (mh data) i % r.size)) r.bits }

/-- Go `Test` (`src/ring.go` lines 71–85): returns `false` as soon as a
required bit is unset, `true` when all `r.hash` bits are set. -/
def Test (mh : List Nat → Nat × Nat) (r : Ring) (data : List Nat) : Bool :=
  (List.range r.hash).all
    (fun i => testIdx r.bits (getRound (mh data) i % r.size))

/-- Go `Reset` (`src/ring.go` lines 63–67):
`r.bits = make([]uint8, r.size/8+1)`. -/
def Reset (r : Ring) : Ring :=
  { r with bits := List.replicate (r.size / 8 + 1) 0 }

end Ring

section BitLemmas

/-- Setting a bit leaves the byte array's length unchanged. -/
theorem setIdx_length (bits : List Nat) (index : Nat) :
    (Ring.setIdx bits index).length = bits.length := by
  simp [Ring.setIdx]

/-- Auxiliary: a byte keeps every set bit when OR-ed with a mask. -/
theorem and_mask_or (x m k : Nat) (h : x &&& (1 <<< k) ≠ 0) :
    (x ||| m) &&& (1 <<< k) ≠ 0 := by
  simp only [Nat.shiftLeft_eq, one_mul, Nat.and_two_pow] at h ⊢
  have hx : x.testBit k = true := by
    by_contra hb
    simp only [Bool.not_eq_true] at hb
    rw [hb] at h
    simp at h
  have hor : (x ||| m).testBit k = true := by
    rw [Nat.testBit_or, hx]
    simp
  rw [hor]
  simp

/-- Auxiliary: OR-ing a mask into a byte sets the mask's bit. -/
theorem and_mask_or_self (x k : Nat) : (x ||| (1 <<< k)) &&& (1 <<< k) ≠ 0 := by
  simp only [Nat.shiftLeft_eq, one_mul, Nat.and_two_pow]
  have hor : (x ||| 2 ^ k).testBit k = true := by
    rw [Nat.testBit_or, Nat.testBit_two_pow_self]
    simp
  rw [hor]
  simp

/-- A byte of `setIdx bits index` is either the untouched old byte or
the old byte OR-ed with the single mask bit. -/
theorem getD_setIdx (bits : List Nat) (index p : Nat) :
    (Ring.setIdx bits index).getD p 0 = bits.getD p 0 ∨
    (Ring.setIdx bits index).getD p 0 = bits.getD p 0 ||| (1 <<< (index % 8)) := by
  unfold Ring.setIdx
  by_cases hp : p = index / 8
  · rw [hp]
    by_cases hlt : index / 8 < bits.length
    · right
      rw [List.getD_eq_getElem?_getD, List.getElem?_set_self (by simpa using hlt)]
      rfl
    · left
      rw [List.set_eq_of_length_le (by omega)]
  · left
    rw [List.getD_eq_getElem?_getD, List.getElem?_set_ne (by omega),
      ← List.getD_eq_getElem?_getD]

/-- The in-range byte of `setIdx bits index` is exactly the old byte
OR-ed with the mask bit. -/
theorem getD_setIdx_self (bits : List Nat) (index : Nat)
    (h : index / 8 < bits.length) :
    (Ring.setIdx bits index).getD (index / 8) 0 =
      bits.getD (index / 8) 0 ||| (1 <<< (index % 8)) := by
  unfold Ring.setIdx
  rw [List.getD_eq_getElem?_getD, List.getElem?_set_self (by simpa using h)]
  rfl

/-- After `setIdx bits index`, the bit at `index` is set, provided the
byte position is in range. -/
theorem testIdx_setIdx_self (bits : List Nat) (index : Nat)
    (h : index / 8 < bits.length) :
    Ring.testIdx (Ring.setIdx bits index) index = true := by
  unfold Ring.testIdx
  rw [getD_setIdx_self bits index h]
  simpa using and_mask_or_self (bits.getD (index / 8) 0) (index % 8)

/-- `setIdx` never clears a set bit: bit monotonicity of a single
assignment. -/
theorem testIdx_setIdx_mono (bits : List Nat) (index j : Nat)
    (h : Ring.testIdx bits j = true) :
    Ring.testIdx (Ring.setIdx bits index) j = true := by
  unfold Ring.testIdx at h ⊢
  simp only [bne_iff_ne, ne_eq] at h ⊢
  rcases getD_setIdx bits index (j / 8) with he | he
  · rw [he]
    exact h
  · rw [he]
    exact and_mask_or (bits.getD (j / 8) 0) (1 <<< (index % 8)) (j % 8) h

end BitLemmas

section FoldLemmas

/-- Folding bit-set steps over a round list preserves the byte array's
length. -/
theorem foldl_setIdx_length (idx : Nat → Nat) (l : List Nat) (bits : List Nat) :
    (l.foldl (fun b i => Ring.setIdx b (idx i)) bits).length = bits.length := by
  induction l generalizing bits with
  | nil => rfl
  | cons a t ih => rw [List.foldl_cons, ih, setIdx_length]

/-- Folding bit-set steps never clears a set bit. -/
theorem testIdx_foldl_mono (idx : Nat → Nat) (l : List Nat) (bits : List Nat)
    (j : Nat) (h : Ring.testIdx bits j = true) :
    Ring.testIdx (l.foldl (fun b i => Ring.setIdx b (idx i)) bits) j = true := by
  induction l generalizing bits with
  | nil => exact h
  | cons a t ih => exact ih _ (testIdx_setIdx_mono _ _ _ h)

/-- After folding bit-set steps over a round list, every round's bit is
set (the byte positions being in range). -/
theorem testIdx_foldl_mem (idx : Nat → Nat) (l : List Nat) (bits : List Nat)
    (i : Nat) (hmem : i ∈ l) (hb : ∀ j, idx j / 8 < bits.length) :
    Ring.testIdx (l.foldl (fun b i => Ring.setIdx b (idx i)) bits) (idx i) = true := by
  induction l generalizing bits with
  | nil => cases hmem
  | cons a t ih =>
    rw [List.foldl_cons]
    rcases List.mem_cons.mp hmem with h1 | h1
    · rw [h1]
      exact testIdx_foldl_mono idx t _ _ (testIdx_setIdx_self bits (idx a) (hb a))
    · exact ih _ h1 (fun j => by rw [setIdx_length]; exact hb j)

end FoldLemmas

/-- Error values of the package.  `errElements` and `errFalsePositive`
are the two `errors.New` values of `src/ring.go`; the remaining three
are modelled from the spec (their operations are not under `src/`). -/
inductive RingError where
  | errElements
  | errFalsePositive
  | incompatibleParameters
  | truncatedData
  | unsupportedVersion
  | corruptData
  deriving Repr, DecidableEq

namespace Ring

/-- Modelled from the spec: `Merge(other)` (not under `src/`) requires
identical `bitCount` and `hashRounds`, failing with
`IncompatibleParameters` otherwise, and on success OR-s `other.bits`
into the receiver's bits byte by byte. -/
def Merge (r other : Ring) : Except RingError Ring :=
  if r.size = other.size ∧ r.hash = other.hash then
    .ok { r with bits := List.zipWith (fun a b => a ||| b) r.bits other.bits }
  else
    .error .incompatibleParameters

end Ring

section MergeLemmas

/-- A set bit of the left operand stays set in the byte-wise OR. -/
theorem testIdx_zipWith_or_left (a b : List Nat) (j : Nat)
    (hlen : a.length = b.length) (h : Ring.testIdx a j = true) :
    Ring.testIdx (List.zipWith (fun x y => x ||| y) a b) j = true := by
  unfold Ring.testIdx at h ⊢
  simp only [bne_iff_ne, ne_eq] at h ⊢
  by_cases hj : j / 8 < a.length
  · have hz : (List.zipWith (fun x y => x ||| y) a b).getD (j / 8) 0 =
        a.getD (j / 8) 0 ||| b.getD (j / 8) 0 := by
      have hja : j / 8 < a.length := hj
      have hjb : j / 8 < b.length := by omega
      rw [List.getD_eq_getElem?_getD, List.getElem?_zipWith',
        List.getElem?_eq_getElem hja, List.getElem?_eq_getElem hjb]
      simp [List.getD_eq_getElem?_getD, List.getElem?_eq_getElem, hja, hjb]
    rw [hz]
    exact and_mask_or _ _ _ h
  · exfalso
    apply h
    rw [List.getD_eq_getElem?_getD, List.getElem?_eq_none (by omega)]
    simp
/-- A set bit of the right operand stays set in the byte-wise OR. -/
theorem testIdx_zipWith_or_right (a b : List Nat) (j : Nat)
    (hlen : a.length = b.length) (h : Ring.testIdx b j = true) :
    Ring.testIdx (List.zipWith (fun x y => x ||| y) a b) j = true := by
  unfold Ring.testIdx at h ⊢
  simp only [bne_iff_ne, ne_eq] at h ⊢
  by_cases hj : j / 8 < b.length
  · have hz : (List.zipWith (fun x y => x ||| y) a b).getD (j / 8) 0 =
        a.getD (j / 8) 0 ||| b.getD (j / 8) 0 := by
      have hja : j / 8 < a.length := by omega
      have hjb : j / 8 < b.length := hj
      rw [List.getD_eq_getElem?_getD, List.getElem?_zipWith',
        List.getElem?_eq_getElem hja, List.getElem?_eq_getElem hjb]
      simp [List.getD_eq_getElem?_getD, List.getElem?_eq_getElem, hja, hjb]
    rw [hz, Nat.or_comm]
    exact and_mask_or _ _ _ h
  · exfalso
    apply h
    rw [List.getD_eq_getElem?_getD, List.getElem?_eq_none (by omega)]
    simp

end MergeLemmas

namespace Ring

/-- Go `Init` (`src/ring.go` lines 29–48), idealised over exact real
arithmetic (the Go code computes `m` and `k` in `float64`): validates
the parameters, then sets
`size = ⌈(-1·elements·ln(falsePositive)) / (ln 2)²⌉`,
`hash = ⌈(m/elements)·ln 2⌉` with `m` the un-ceiled real value, and
allocates `size/8 + 1` zero bytes. -/
noncomputable def Init (elements : Int) (falsePositive : ℝ) :
    Except RingError Ring :=
  if elements ≤ 0 then .error .errElements
  else if falsePositive ≤ 0 ∨ 1 ≤ falsePositive then .error .errFalsePositive
  else
    .ok ⟨⌈(-1 * (elements : ℝ) * Real.log falsePositive) / Real.log 2 ^ 2⌉₊,
      ⌈(-1 * (elements : ℝ) * Real.log falsePositive) / Real.log 2 ^ 2 /
        (elements : ℝ) * Real.log 2⌉₊,
      List.replicate
        (⌈(-1 * (elements : ℝ) * Real.log falsePositive) / Real.log 2 ^ 2⌉₊ / 8
          + 1) 0⟩

end Ring

section InitLemmas

/-- Upper estimate for `ln(648/625)` from `ln x ≤ x - 1`. -/
theorem log_648_625_le : Real.log (648 / 625) ≤ 23 / 625 := by
  have h := Real.log_le_sub_one_of_pos (x := (648 / 625 : ℝ)) (by norm_num)
  linarith

/-- Lower estimate for `ln(648/625)` from `ln x ≥ 1 - 1/x`. -/
theorem le_log_648_625 : (23 : ℝ) / 648 ≤ Real.log (648 / 625) := by
  have h := Real.log_le_sub_one_of_pos (x := (625 / 648 : ℝ)) (by norm_num)
  have hinv : Real.log ((625 : ℝ) / 648) = -Real.log (648 / 625) := by
    rw [show ((625 : ℝ) / 648) = (648 / 625 : ℝ)⁻¹ by norm_num, Real.log_inv]
  rw [hinv] at h
  linarith

/-- Exact decomposition of `ln(3/10)`: `(3/10)⁴ = (648/625)/2⁷`. -/
theorem log_three_tenths :
    Real.log (3 / 10) = (Real.log (648 / 625) - 7 * Real.log 2) / 4 := by
  have h4 : ((3 : ℝ) / 10) ^ 4 = (648 / 625) / 2 ^ 7 := by norm_num
  have h1 : Real.log (((3 : ℝ) / 10) ^ 4) = 4 * Real.log (3 / 10) := by
    rw [Real.log_pow]
    push_cast
    ring
  have h2 : Real.log ((648 / 625 : ℝ) / 2 ^ 7) =
      Real.log (648 / 625) - 7 * Real.log 2 := by
    rw [Real.log_div (by norm_num) (by norm_num), Real.log_pow]
    push_cast
    ring
  rw [h4, h2] at h1
  linarith

/-- Evaluation of `Init 2 (3/10)`: the sizing formula yields
`size = 6` and `hash = 2` (the Go code derives `hash` from the
un-ceiled `m`). -/
theorem init_two_three_tenths :
    Ring.Init 2 (3 / 10) = .ok ⟨6, 2, [0]⟩ := by
  unfold Ring.Init
  rw [if_neg (by norm_num), if_neg (by norm_num)]
  have hl2lo := Real.log_two_gt_d9
  have hl2hi := Real.log_two_lt_d9
  have hDlo := le_log_648_625
  have hDhi := log_648_625_le
  have hL0 : (0 : ℝ) < Real.log 2 := by linarith
  have hLne : Real.log 2 ≠ 0 := ne_of_gt hL0
  have hM : (-1 * ((2 : Int) : ℝ) * Real.log (3 / 10)) / Real.log 2 ^ 2 =
      (7 * Real.log 2 - Real.log (648 / 625)) / (2 * Real.log 2 ^ 2) := by
    rw [log_three_tenths]
    push_cast
    field_simp
    ring
  have hK : (-1 * ((2 : Int) : ℝ) * Real.log (3 / 10)) / Real.log 2 ^ 2 /
      ((2 : Int) : ℝ) * Real.log 2 =
      (7 * Real.log 2 - Real.log (648 / 625)) / (4 * Real.log 2) := by
    rw [log_three_tenths]
    push_cast
    field_simp
    ring
  have hden : (0 : ℝ) < 2 * Real.log 2 ^ 2 := by positivity
  have hceilM :
      ⌈(7 * Real.log 2 - Real.log (648 / 625)) / (2 * Real.log 2 ^ 2)⌉₊ = 6 := by
    refine (Nat.ceil_eq_iff (by norm_num)).mpr ⟨?_, ?_⟩
    · push_cast
      rw [lt_div_iff hden]
      nlinarith
    · push_cast
      rw [div_le_iff hden]
      nlinarith
  have hceilK :
      ⌈(7 * Real.log 2 - Real.log (648 / 625)) / (4 * Real.log 2)⌉₊ = 2 := by
    refine (Nat.ceil_eq_iff (by norm_num)).mpr ⟨?_, ?_⟩
    · push_cast
      rw [lt_div_iff (by linarith)]
      nlinarith
    · push_cast
      rw [div_le_iff (by linarith)]
      nlinarith
  rw [hK, hM, hceilK, hceilM]
  rfl

/-- Evaluation of `Init 5 (1/2)`: `m = 5/ln 2 ≈ 7.21`, so `size = 8`
(a multiple of 8) and the byte array gets `8/8 + 1 = 2` bytes. -/
theorem init_five_half :
    Ring.Init 5 (1 / 2) = .ok ⟨8, 1, [0, 0]⟩ := by
  unfold Ring.Init
  rw [if_neg (by norm_num), if_neg (by norm_num)]
  have hl2lo := Real.log_two_gt_d9
  have hl2hi := Real.log_two_lt_d9
  have hL0 : (0 : ℝ) < Real.log 2 := by linarith
  have hLne : Real.log 2 ≠ 0 := ne_of_gt hL0
  have hlog12 : Real.log ((1 : ℝ) / 2) = -Real.log 2 := by
    rw [one_div, Real.log_inv]
  have hM : (-1 * ((5 : Int) : ℝ) * Real.log (1 / 2)) / Real.log 2 ^ 2 =
      5 / Real.log 2 := by
    rw [hlog12]
    push_cast
    field_simp
    ring
  have hK : (-1 * ((5 : Int) : ℝ) * Real.log (1 / 2)) / Real.log 2 ^ 2 /
      ((5 : Int) : ℝ) * Real.log 2 = 1 := by
    rw [hlog12]
    push_cast
    field_simp
    ring
  have hceilM : ⌈(5 : ℝ) / Real.log 2⌉₊ = 8 := by
    refine (Nat.ceil_eq_iff (by norm_num)).mpr ⟨?_, ?_⟩
    · push_cast
      rw [lt_div_iff hL0]
      nlinarith
    · push_cast
      rw [div_le_iff hL0]
      nlinarith
  rw [hK, hM, Nat.ceil_one, hceilM]
  rfl

end InitLemmas

/-- A freshly zeroed byte array has no set bit. -/
theorem testIdx_replicate_zero (n j : Nat) :
    Ring.testIdx (List.replicate n 0) j = false := by
  unfold Ring.testIdx
  have hz : (List.replicate n 0).getD (j / 8) 0 = 0 := by
    rw [List.getD_eq_getElem?_getD, List.getElem?_replicate]
    split <;> rfl
  rw [hz]
  simp

/-- One `Add` never turns a positive `Test` negative. -/
theorem test_add_preserved (mh : List Nat → Nat × Nat) (r : Ring)
    (e d : List Nat) (h : Ring.Test mh r d = true) :
    Ring.Test mh (Ring.Add mh r e) d = true := by
  simp only [Ring.Test, Ring.Add, List.all_eq_true, List.mem_range] at h ⊢
  intro i hi
  exact testIdx_foldl_mono _ _ _ _ (h i hi)

/-- C1: for every byte string `d` and every validly constructed store
(positive bit count, byte array of length `size/8+1`), `Add d`
immediately followed by `Test d` returns `true`, for any deterministic
hash engine `mh`. -/
theorem add_then_test_true (mh : List Nat → Nat × Nat) (r : Ring)
    (d : List Nat) (hs : 0 < r.size) (hlen : r.bits.length = r.size / 8 + 1) :
    Ring.Test mh (Ring.Add mh r d) d = true := by
  simp only [Ring.Test, Ring.Add, List.all_eq_true, List.mem_range]
  intro i hi
  apply testIdx_foldl_mem (fun i => Ring.getRound (mh d) i % r.size)
  · exact List.mem_range.mpr hi
  · intro j
    have hm : Ring.getRound (mh d) j % r.size < r.size := Nat.mod_lt _ hs
    omega

/-- Witness for C1 at a concrete store and input. -/
theorem add_then_test_true_witness :
    Ring.Test (fun _ => (0, 0))
      (Ring.Add (fun _ => (0, 0)) ⟨6, 2, [0]⟩ [1, 2]) [1, 2] = true :=
  add_then_test_true (fun _ => (0, 0)) ⟨6, 2, [0]⟩ [1, 2] (by decide) (by decide)

/-- C4: after `Reset`, `Test` returns `false` for every byte string
(on a valid store: positive bit count and hash rounds), and `Reset` is
idempotent. -/
theorem reset_clears_and_idempotent (mh : List Nat → Nat × Nat) (r : Ring)
    (d : List Nat) (hs : 0 < r.size) (hh : 0 < r.hash) :
    Ring.Test mh (Ring.Reset r) d = false ∧
      Ring.Reset (Ring.Reset r) = Ring.Reset r := by
  refine ⟨?_, rfl⟩
  apply Bool.eq_false_iff.mpr
  intro hall
  simp only [Ring.Test, Ring.Reset, List.all_eq_true, List.mem_range] at hall
  have := hall 0 hh
  rw [testIdx_replicate_zero] at this
  cases this

/-- Witness for C4 at a concrete store and input. -/
theorem reset_clears_and_idempotent_witness :
    Ring.Test (fun _ => (1, 1)) (Ring.Reset ⟨6, 2, [255]⟩) [7] = false ∧
      Ring.Reset (Ring.Reset ⟨6, 2, [255]⟩) = Ring.Reset ⟨6, 2, [255]⟩ :=
  reset_clears_and_idempotent (fun _ => (1, 1)) ⟨6, 2, [255]⟩ [7]
    (by decide) (by decide)

/-- C5: after a successful `A.Merge(B)` (stores with byte arrays of
equal length), every byte string testing positive in `A` or in `B`
before the merge tests positive in the merged store. -/
theorem merge_preserves_membership (mh : List Nat → Nat × Nat)
    (A B A' : Ring) (d : List Nat)
    (hlen : A.bits.length = B.bits.length)
    (hm : Ring.Merge A B = .ok A')
    (h : Ring.Test mh A d = true ∨ Ring.Test mh B d = true) :
    Ring.Test mh A' d = true := by
  unfold Ring.Merge at hm
  split at hm
  case isTrue hcond =>
    obtain ⟨hsz, hh⟩ := hcond
    simp only [Except.ok.injEq] at hm
    subst hm
    rcases h with h | h
    · simp only [Ring.Test, List.all_eq_true, List.mem_range] at h ⊢
      intro i hi
      exact testIdx_zipWith_or_left _ _ _ hlen (h i hi)
    · simp only [Ring.Test, List.all_eq_true, List.mem_range] at h ⊢
      intro i hi
      rw [hsz]
      exact testIdx_zipWith_or_right _ _ _ hlen (h i (hh ▸ hi))
  case isFalse => cases hm

/-- Witness for C5 at concrete stores. -/
theorem merge_preserves_membership_witness :
    Ring.Test (fun _ => (0, 0)) (⟨6, 2, [3]⟩ : Ring) [] = true :=
  merge_preserves_membership (fun _ => (0, 0)) ⟨6, 2, [3]⟩ ⟨6, 2, [0]⟩
    ⟨6, 2, [3]⟩ [] (by decide) rfl (Or.inl (by decide))

/-- C8: a store with `hashRounds = 0` reports membership `true` for
every input, whatever the bit array holds. -/
theorem test_zero_rounds_true (mh : List Nat → Nat × Nat) (r : Ring)
    (d : List Nat) (h : r.hash = 0) : Ring.Test mh r d = true := by
  simp [Ring.Test, h]

/-- Witness for C8 at a concrete store. -/
theorem test_zero_rounds_true_witness :
    Ring.Test (fun _ => (9, 9)) (⟨5, 0, [0]⟩ : Ring) [4] = true :=
  test_zero_rounds_true (fun _ => (9, 9)) ⟨5, 0, [0]⟩ [4] rfl

/-- C9: `Add` only sets bits: a byte string testing positive keeps
testing positive across any further sequence of `Add` calls. -/
theorem test_preserved_by_adds (mh : List Nat → Nat × Nat) (r : Ring)
    (d : List Nat) (es : List (List Nat)) (hs : 0 < r.size)
    (h : Ring.Test mh r d = true) :
    Ring.Test mh (es.foldl (Ring.Add mh) r) d = true := by
  clear hs
  induction es generalizing r with
  | nil => exact h
  | cons e t ih => exact ih _ (test_add_preserved mh r e d h)

/-- Witness for C9 at a concrete store, input and add-sequence. -/
theorem test_preserved_by_adds_witness :
    Ring.Test (fun _ => (0, 0))
      ([[5], [6]].foldl (Ring.Add (fun _ => (0, 0))) ⟨6, 2, [3]⟩) [] = true :=
  test_preserved_by_adds (fun _ => (0, 0)) ⟨6, 2, [3]⟩ [] [[5], [6]]
    (by decide) (by decide)

/-- C10: every byte access of `Add` and `Test` is in bounds: on a
well-formed store the derived index is reduced modulo `size`, so the
accessed byte position `index/8` is below the byte array's length. -/
theorem access_in_bounds (mh : List Nat → Nat × Nat) (r : Ring)
    (d : List Nat) (i : Nat) (hs : 0 < r.size)
    (hlen : r.bits.length = r.size / 8 + 1) (hi : i < r.hash) :
    Ring.getRound (mh d) i % r.size / 8 < r.bits.length := by
  have hm : Ring.getRound (mh d) i % r.size < r.size := Nat.mod_lt _ hs
  omega

/-- Witness for C10 at a concrete store and round. -/
theorem access_in_bounds_witness :
    Ring.getRound ((fun _ => (81, 17)) [3]) 1 % (6 : Nat) / 8 < 1 :=
  access_in_bounds (fun _ => (81, 17)) ⟨6, 2, [0]⟩ [3] 1 (by decide)
    (by decide) (by decide)

/-- C2 (counterexample): at `elements = 2`, `falsePositiveRate = 3/10`
the constructor yields `hashRounds = 2`, but the claimed formula
`ceil((ceil(m)/elements)·ln 2)` — with the already-ceiled
`bitCount = 6` — yields `ceil(3·ln 2) = 3`: the code derives
`hashRounds` from the un-ceiled `m`. -/
theorem init_hash_formula_counterexample :
    Ring.Init 2 (3 / 10) = .ok ⟨6, 2, [0]⟩ ∧
      (⟨6, 2, [0]⟩ : Ring).hash ≠
        ⌈(((⟨6, 2, [0]⟩ : Ring).size : ℝ) / ((2 : Int) : ℝ)) * Real.log 2⌉₊ := by
  refine ⟨init_two_three_tenths, ?_⟩
  have hl2lo := Real.log_two_gt_d9
  have hl2hi := Real.log_two_lt_d9
  have hceil : ⌈(((6 : Nat) : ℝ) / ((2 : Int) : ℝ)) * Real.log 2⌉₊ = 3 := by
    have h3 : (((6 : Nat) : ℝ) / ((2 : Int) : ℝ)) * Real.log 2 =
        3 * Real.log 2 := by
      push_cast
      ring
    rw [h3]
    refine (Nat.ceil_eq_iff (by norm_num)).mpr ⟨?_, ?_⟩
    · push_cast
      nlinarith
    · push_cast
      nlinarith
  intro hc
  rw [hceil] at hc
  exact absurd hc (by decide)

/-- C2 (amended): on success, `size = ceil(-elements·ln(p)/(ln 2)²)`
and `hash = ceil((m/elements)·ln 2)` where `m` is the un-ceiled real
value `-elements·ln(p)/(ln 2)²`. -/
theorem init_sizing_formula (elements : Int) (p : ℝ) (r : Ring)
    (h : Ring.Init elements p = .ok r) :
    r.size = ⌈(-1 * (elements : ℝ) * Real.log p) / Real.log 2 ^ 2⌉₊ ∧
      r.hash = ⌈(-1 * (elements : ℝ) * Real.log p) / Real.log 2 ^ 2 /
        (elements : ℝ) * Real.log 2⌉₊ := by
  unfold Ring.Init at h
  split at h
  · cases h
  · split at h
    · cases h
    · simp only [Except.ok.injEq] at h
      subst h
      exact ⟨rfl, rfl⟩

/-- Witness for the amended C2 at `Init 2 (3/10)`. -/
theorem init_sizing_formula_witness :
    (⟨6, 2, [0]⟩ : Ring).size =
        ⌈(-1 * ((2 : Int) : ℝ) * Real.log (3 / 10)) / Real.log 2 ^ 2⌉₊ ∧
      (⟨6, 2, [0]⟩ : Ring).hash =
        ⌈(-1 * ((2 : Int) : ℝ) * Real.log (3 / 10)) / Real.log 2 ^ 2 /
          ((2 : Int) : ℝ) * Real.log 2⌉₊ :=
  init_sizing_formula 2 (3 / 10) ⟨6, 2, [0]⟩ init_two_three_tenths

/-- C3 (counterexample): `Init 5 (1/2)` builds a store with
`size = 8` whose byte array has length `2`, while
`ceil(bitCount/8) = (8 + 7)/8 = 1`: the code allocates
`bitCount/8 + 1` bytes (floor division plus one), not
`ceil(bitCount/8)`. -/
theorem init_bits_length_counterexample :
    Ring.Init 5 (1 / 2) = .ok ⟨8, 1, [0, 0]⟩ ∧
      (⟨8, 1, [0, 0]⟩ : Ring).bits.length ≠
        ((⟨8, 1, [0, 0]⟩ : Ring).size + 7) / 8 :=
  ⟨init_five_half, by decide⟩

/-- C3 (amended): the byte array of a constructed store has length
exactly `size/8 + 1` (floor division), and `Reset` always rebuilds a
byte array of length `size/8 + 1`. -/
theorem init_reset_bits_length (elements : Int) (p : ℝ) (r : Ring)
    (h : Ring.Init elements p = .ok r) :
    r.bits.length = r.size / 8 + 1 ∧
      ∀ r' : Ring, (Ring.Reset r').bits.length = r'.size / 8 + 1 := by
  refine ⟨?_, fun r' => by simp [Ring.Reset]⟩
  unfold Ring.Init at h
  split at h
  · cases h
  · split at h
    · cases h
    · simp only [Except.ok.injEq] at h
      subst h
      simp

/-- Witness for the amended C3 at `Init 5 (1/2)`. -/
theorem init_reset_bits_length_witness :
    (⟨8, 1, [0, 0]⟩ : Ring).bits.length = (⟨8, 1, [0, 0]⟩ : Ring).size / 8 + 1 ∧
      ∀ r' : Ring, (Ring.Reset r').bits.length = r'.size / 8 + 1 :=
  init_reset_bits_length 5 (1 / 2) ⟨8, 1, [0, 0]⟩ init_five_half

/-- C6: the sizing constructor fails, with exactly the invalid-parameter
error the code picks (`errElements` on `elements ≤ 0`, else
`errFalsePositive` on `p ≤ 0` or `p ≥ 1` — the spec groups both as
`InvalidParameters`), precisely when `elements ≤ 0`, `p ≤ 0` or
`p ≥ 1`, and succeeds for every other argument pair. -/
theorem init_validation (elements : Int) (p : ℝ) :
    (elements ≤ 0 → Ring.Init elements p = .error .errElements) ∧
    (0 < elements → (p ≤ 0 ∨ 1 ≤ p) →
      Ring.Init elements p = .error .errFalsePositive) ∧
    (0 < elements → 0 < p → p < 1 →
      ∃ r, Ring.Init elements p = .ok r) := by
  refine ⟨?_, ?_, ?_⟩
  · intro he
    unfold Ring.Init
    rw [if_pos he]
  · intro he hp
    unfold Ring.Init
    rw [if_neg (by omega), if_pos hp]
  · intro h1 h2 h3
    exact ⟨_, by
      unfold Ring.Init
      rw [if_neg (by omega), if_neg (by push_neg; exact ⟨h2, h3⟩)]⟩

/-- Witness for C6: each invalid-parameter error at a concrete failing
input, and a concrete succeeding input. -/
theorem init_validation_witness :
    Ring.Init 0 (1 / 2) = .error .errElements ∧
      Ring.Init 100 1 = .error .errFalsePositive ∧
      (∃ r, Ring.Init 2 (3 / 10) = .ok r) :=
  ⟨(init_validation 0 (1 / 2)).1 (by norm_num),
    (init_validation 100 1).2.1 (by norm_num) (by norm_num),
    (init_validation 2 (3 / 10)).2.2 (by norm_num) (by norm_num) (by norm_num)⟩

namespace Ring

/-- Modelled from the spec: the single supported serialization version
tag (`MarshalBinary`/`UnmarshalBinary` are not under `src/`). -/
def version : Nat := 1

/-- Modelled from the spec: fixed-byte-order (big-endian) decoding of a
fixed-width unsigned 64-bit field. -/
def beUint64 (bytes : List Nat) : Nat :=
  bytes.foldl (fun a b => a * 256 + b) 0

/-- Modelled from the spec: the validate-then-apply parsing step of
`UnmarshalBinary` (not under `src/`): `TruncatedData` when the input is
shorter than the 17-byte header, `UnsupportedVersion` when the version
byte differs from the supported constant, `CorruptData` when the
trailing buffer length differs from `ceil(bitCount/8)`. -/
def unmarshalParse (data : List Nat) :
    Except RingError (Nat × Nat × List Nat) :=
  if data.length < 17 then .error .truncatedData
  else if data.headD 0 ≠ version then .error .unsupportedVersion
  else if (data.drop 17).length ≠ (beUint64 ((data.drop 1).take 8) + 7) / 8 then
    .error .corruptData
  else
    .ok (beUint64 ((data.drop 1).take 8), beUint64 ((data.drop 9).take 8),
      data.drop 17)

/-- Modelled from the spec: `UnmarshalBinary` on a store: on success all
three fields are replaced with the decoded values; on error the store is
returned untouched, paired with the error. -/
def UnmarshalBinary (r : Ring) (data : List Nat) : Ring × Option RingError :=
  match unmarshalParse data with
  | .ok (bitCount, hashRounds, buf) => (⟨bitCount, hashRounds, buf⟩, none)
  | .error e => (r, some e)

end Ring

/-- C7: `UnmarshalBinary` fails with `TruncatedData` on inputs shorter
than the 17-byte header, with `UnsupportedVersion` when the version byte
differs from the supported constant, with `CorruptData` when the
trailing buffer length differs from `ceil(bitCount/8)`; in each case the
store is returned exactly as it was. -/
theorem unmarshal_error_cases (r : Ring) (data : List Nat) :
    (data.length < 17 →
      Ring.UnmarshalBinary r data = (r, some .truncatedData)) ∧
    (17 ≤ data.length → data.headD 0 ≠ Ring.version →
      Ring.UnmarshalBinary r data = (r, some .unsupportedVersion)) ∧
    (17 ≤ data.length → data.headD 0 = Ring.version →
      (data.drop 17).length ≠ (Ring.beUint64 ((data.drop 1).take 8) + 7) / 8 →
      Ring.UnmarshalBinary r data = (r, some .corruptData)) := by
  refine ⟨?_, ?_, ?_⟩
  · intro h
    unfold Ring.UnmarshalBinary Ring.unmarshalParse
    rw [if_pos h]
  · intro h1 h2
    unfold Ring.UnmarshalBinary Ring.unmarshalParse
    rw [if_neg (by omega), if_pos h2]
  · intro h1 h2 h3
    unfold Ring.UnmarshalBinary Ring.unmarshalParse
    rw [if_neg (by omega), if_neg (not_ne_iff.mpr h2), if_pos h3]

/-- Witness for C7: a one-byte input is rejected as truncated and the
store is unchanged. -/
theorem unmarshal_error_cases_witness :
    Ring.UnmarshalBinary ⟨6, 2, [0]⟩ [1] = (⟨6, 2, [0]⟩, some .truncatedData) :=
  (unmarshal_error_cases ⟨6, 2, [0]⟩ [1]).1 (by decide)

end RingPkg
